import Mathlib

/-!
Shallow embedding of `SloppyScaling.py`: scaling theories, data collections,
models (residual/cost), and composite models with parameter unification.
Numeric values are modelled as rationals; Python exceptions (out-of-range
indexing, exhausted recursion) are modelled with `Option`.
-/

namespace SloppyScaling

/-- Numeric values of the program (Python floats, modelled as rationals). -/
abbrev Val := ℚ

/-- Python-style list indexing `l[i]` with negative indices counting from the
end; `none` models an `IndexError`. -/
def pyGet (l : List Val) (i : ℤ) : Option Val :=
  if 0 ≤ i then l[i.toNat]?
  else if 0 ≤ (l.length : ℤ) + i then l[((l.length : ℤ) + i).toNat]? else none

/-- `scipy.arange(a, b)` with unit step: `a, a+1, ...` while `< b`. -/
def arange (a b : Val) : List Val :=
  (List.range (b - a).ceil.toNat).map (fun k => a + (k : Val))

/-- Which normalization method is installed as `Norm` on the theory
(`Norm = NormBasic  # Overload if desired`). -/
inductive NormStrategy
  | basic : NormStrategy
  | integerSum (xStart xEnd : Val) : NormStrategy

/-- `ScalingTheory.NormBasic`: trapezoid normalization
`norm = Y[0]*(X[1]-X[0]) + sum(Y[1:-1]*(X[2:]-X[:-2])/2.0) + Y[-1]*(X[-1]-X[-2])`,
returning `Y/norm`.  Out-of-range indexing yields `none`. -/
def NormBasic (X Y : List Val) : Option (List Val) := do
  let y0 ← pyGet Y 0
  let x1 ← pyGet X 1
  let x0 ← pyGet X 0
  let mid := (List.zipWith (fun y d => y * d / 2)
      ((Y.drop 1).take (Y.length - 2))
      (List.zipWith (fun a b => a - b) (X.drop 2) (X.take (X.length - 2)))).sum
  let yLast ← pyGet Y (-1)
  let xLast ← pyGet X (-1)
  let xPrev ← pyGet X (-2)
  let norm := y0 * (x1 - x0) + mid + yLast * (xLast - xPrev)
  some (Y.map (fun y => y / norm))

/-- `ScalingTheory.NormIntegerSum`: `Y / sum(self.Y(arange(xStart, xEnd), p, iv))`,
abstracted over the recursive call `self.Y` (passed as `selfY`). -/
def NormIntegerSum (selfY : List Val → List Val → List Val → Option (List Val))
    (Y p iv : List Val) (xStart xEnd : Val) : Option (List Val) :=
  (selfY (arange xStart xEnd) p iv).map (fun s => Y.map (fun y => y / s.sum))

/-- A `ScalingTheory`: the exec-ed formula strings become Lean functions of
`(X, parameterValues, independentValues)` (and `Y` for `scalingY`). -/
structure ScalingTheory where
  Ytheory : List Val → List Val → List Val → List Val
  parameterNames : String
  parameterNameList : List String
  initialParameterValues : List Val
  scalingX : List Val → List Val → List Val → List Val
  scalingY : List Val → List Val → List Val → List Val → List Val
  normalize : Bool
  norm : NormStrategy

/-- `ScalingTheory.Y`: evaluate the theory formula, then normalize if
configured.  `fuel` bounds the recursion depth of `self.Y` re-entering
`Norm` (Python's call stack); `none` models a raised exception. -/
def ScalingTheory.Yfuel (th : ScalingTheory) :
    Nat → List Val → List Val → List Val → Option (List Val)
  | fuel, X, p, iv =>
    let Y := th.Ytheory X p iv
    if th.normalize then
      match th.norm with
      | NormStrategy.basic => NormBasic X Y
      | NormStrategy.integerSum xStart xEnd =>
        match fuel with
        | 0 => none
        | Nat.succ fuel' =>
          NormIntegerSum (fun x q j => th.Yfuel fuel' x q j) Y p iv xStart xEnd
    else
      some Y

/-- `ScalingTheory.ScaleX`. -/
def ScalingTheory.ScaleX (th : ScalingTheory) (X p iv : List Val) : List Val :=
  th.scalingX X p iv

/-- `ScalingTheory.ScaleY`. -/
def ScalingTheory.ScaleY (th : ScalingTheory) (X Y p iv : List Val) : List Val :=
  th.scalingY X Y p iv

/-- A `Data` collection: an ordered experiment list of control-parameter
tuples, and per-tuple arrays `X`, `Y`, `errorBar` plus `initialSkip`. -/
structure Data where
  experiments : List (List Val)
  X : List Val → List Val
  Y : List Val → List Val
  errorBar : List Val → List Val
  initialSkip : List Val → Nat

/-- A `Model` binds one theory to one data collection. -/
structure Model where
  theory : ScalingTheory
  data : Data
  name : String

/-- The loop body of `Model.Residual`: accumulate, over the experiment list,
`list((Ytheory - Y)/errorBar)` on the post-`initialSkip` slices. -/
def residualOver (th : ScalingTheory) (d : Data) (fuel : Nat) (p : List Val) :
    List (List Val) → Option (List Val)
  | [] => some []
  | iv :: rest => do
    let skip := d.initialSkip iv
    let Yth ← th.Yfuel fuel ((d.X iv).drop skip) p iv
    let tail ← residualOver th d fuel p rest
    some (List.zipWith (fun a b => a / b)
      (List.zipWith (fun a b => a - b) Yth ((d.Y iv).drop skip))
      ((d.errorBar iv).drop skip) ++ tail)

/-- `Model.Residual(parameterValues)`. -/
def Model.Residual (m : Model) (fuel : Nat) (p : List Val) : Option (List Val) :=
  residualOver m.theory m.data fuel p m.data.experiments

/-- `Model.Cost(parameterValues=None)`: `sum(residuals*residuals)`; an omitted
argument (`none`) defaults to the theory's stored initial values. -/
def Model.Cost (m : Model) (fuel : Nat) (pOpt : Option (List Val)) : Option Val :=
  let p := pOpt.getD m.theory.initialParameterValues
  (m.Residual fuel p).map (fun r => (List.zipWith (fun a b => a * b) r r).sum)

/-- `CompositeModel.CompositeTheory`: the unified parameter space. -/
structure CompositeTheory where
  parameterNames : String
  initialParameterValues : List Val
  parameterNameList : List String

/-- A `CompositeModel`: named sub-models plus the unified theory.  The
Python 2 dict `self.Models` is modelled as an association list; since a
Python 2 dict iterates in hash-slot order, the stored list order models one
possible `values()` traversal order, not a guaranteed insertion order. -/
structure CompositeModel where
  Models : List (String × Model)
  theory : CompositeTheory
  name : String

/-- `CompositeModel.__init__`. -/
def emptyComposite (name : String) : CompositeModel :=
  { Models := [], theory := ⟨"", [], []⟩, name := name }

/-- `self.Models[modelName] = model`: replace an existing key in place,
otherwise append. -/
def insertModel (ms : List (String × Model)) (k : String) (v : Model) :
    List (String × Model) :=
  if ms.any (fun nm => nm.1 = k) then
    ms.map (fun nm => if nm.1 = k then (k, v) else nm)
  else
    ms ++ [(k, v)]

/-- The parameter-merging loop of `InstallModel`: for each `(param, init)` of
the installed model (in declared order), append it if the name is new;
otherwise keep the stored value (the conflict branch only prints). -/
def addParams (th : CompositeTheory) : List (String × Val) → CompositeTheory
  | [] => th
  | (param, init) :: rest =>
    if param ∈ th.parameterNameList then
      addParams th rest
    else
      addParams
        { parameterNames :=
            if th.parameterNames.length = 0 then th.parameterNames ++ param
            else th.parameterNames ++ "," ++ param
          initialParameterValues := th.initialParameterValues ++ [init]
          parameterNameList := th.parameterNameList ++ [param] } rest

/-- The overwrite at the end of `InstallModel`: point a sub-model theory's
parameter fields at the composite's unified lists. -/
def syncTheory (t : ScalingTheory) (th : CompositeTheory) : ScalingTheory :=
  { t with
    parameterNames := th.parameterNames
    parameterNameList := th.parameterNameList
    initialParameterValues := th.initialParameterValues }

/-- `CompositeModel.InstallModel(modelName, model)`. -/
def CompositeModel.InstallModel (c : CompositeModel) (modelName : String)
    (model : Model) : CompositeModel :=
  let ms := insertModel c.Models modelName model
  let th := addParams c.theory
    (model.theory.parameterNameList.zip model.theory.initialParameterValues)
  { c with
    Models := ms.map (fun nm => (nm.1, { nm.2 with theory := syncTheory nm.2.theory th }))
    theory := th }

/-- The loop body of `CompositeModel.Residual`: concatenate sub-model
residuals over a traversal order of `self.Models.values()` (in Python 2 that
order is hash-determined, not insertion order). -/
def compositeResidualOver (fuel : Nat) (p : List Val) :
    List (String × Model) → Option (List Val)
  | [] => some []
  | nm :: rest => do
    let r ← nm.2.Residual fuel p
    let tail ← compositeResidualOver fuel p rest
    some (r ++ tail)

/-- `CompositeModel.Residual(parameterValues)`. -/
def CompositeModel.Residual (c : CompositeModel) (fuel : Nat) (p : List Val) :
    Option (List Val) :=
  compositeResidualOver fuel p c.Models

/-- `CompositeModel.Cost(parameterValues=None)`. -/
def CompositeModel.Cost (c : CompositeModel) (fuel : Nat)
    (pOpt : Option (List Val)) : Option Val :=
  let p := pOpt.getD c.theory.initialParameterValues
  (c.Residual fuel p).map (fun r => (List.zipWith (fun a b => a * b) r r).sum)

/-- Installing a list of models in order into a composite. -/
def installAll (c : CompositeModel) (ms : List (String × Model)) : CompositeModel :=
  ms.foldl (fun acc nm => acc.InstallModel nm.1 nm.2) c

/-! ### Example instances used by witnesses -/

/-- A theory with formula `"X"`, normalization enabled, and `Norm` overloaded
to `NormIntegerSum` with its default bounds `xStart=1, xEnd=1024`. -/
def integerSumTheory : ScalingTheory :=
  { Ytheory := fun X _ _ => X
    parameterNames := "a"
    parameterNameList := ["a"]
    initialParameterValues := [1]
    scalingX := fun X _ _ => X
    scalingY := fun _ Y _ _ => Y
    normalize := true
    norm := NormStrategy.integerSum 1 1024 }

/-- A theory with formula `"X**2"`, `scalingX="X"`, `scalingY="Y/X**2"`, and
normalization off. -/
def squareTheory : ScalingTheory :=
  { Ytheory := fun X _ _ => X.map (fun x => x ^ 2)
    parameterNames := "a"
    parameterNameList := ["a"]
    initialParameterValues := [1]
    scalingX := fun X _ _ => X
    scalingY := fun X Y _ _ => List.zipWith (fun y x => y / x ^ 2) Y X
    normalize := false
    norm := NormStrategy.basic }

instance : Inhabited ScalingTheory :=
  ⟨{ Ytheory := fun _ _ _ => []
     parameterNames := ""
     parameterNameList := []
     initialParameterValues := []
     scalingX := fun _ _ _ => []
     scalingY := fun _ _ _ _ => []
     normalize := false
     norm := NormStrategy.basic }⟩

instance : Inhabited Data :=
  ⟨{ experiments := []
     X := fun _ => []
     Y := fun _ => []
     errorBar := fun _ => []
     initialSkip := fun _ => 0 }⟩

instance : Inhabited Model := ⟨{ theory := default, data := default, name := "" }⟩

/-- A small data collection with one curve, `initialSkip = 1`. -/
def dataEx : Data :=
  { experiments := [[0]]
    X := fun _ => [1, 2, 3]
    Y := fun _ => [1, 4, 9]
    errorBar := fun _ => [1, 1, 1]
    initialSkip := fun _ => 1 }

/-- A model pairing the square-formula theory with `dataEx`. -/
def modelEx : Model := { theory := squareTheory, data := dataEx, name := "sq" }

/-- A second, unnormalized linear theory with its own parameter `b`. -/
def linTheory : ScalingTheory :=
  { Ytheory := fun X _ _ => X
    parameterNames := "b"
    parameterNameList := ["b"]
    initialParameterValues := [2]
    scalingX := fun X _ _ => X
    scalingY := fun _ Y _ _ => Y
    normalize := false
    norm := NormStrategy.basic }

/-- A model pairing `linTheory` with `dataEx`. -/
def modelEx2 : Model := { theory := linTheory, data := dataEx, name := "lin" }

/-- A composite with two installed sub-models. -/
def compositeEx : CompositeModel :=
  ((emptyComposite "joint").InstallModel "sq" modelEx).InstallModel "lin" modelEx2

/-- The residual block contributed by one curve: the elementwise values
`(Theory.Y(X[initialSkip:], p, iv) - Y[initialSkip:]) / errorBar[initialSkip:]`
in original post-skip sample order. -/
def curveBlock (th : ScalingTheory) (d : Data) (fuel : Nat) (p iv : List Val) :
    List Val :=
  let skip := d.initialSkip iv
  List.zipWith (fun a b => a / b)
    (List.zipWith (fun a b => a - b)
      ((th.Yfuel fuel ((d.X iv).drop skip) p iv).getD []) ((d.Y iv).drop skip))
    ((d.errorBar iv).drop skip)

/-- Spec-side residual: the flat concatenation of the per-curve blocks over
the experiment list, in list order. -/
def residualConcatSpec (m : Model) (fuel : Nat) (p : List Val) : List Val :=
  (m.data.experiments.map (curveBlock m.theory m.data fuel p)).flatten

/-- A theory redeclaring the shared parameter `a` with a conflicting initial
value `5`, plus its own new parameter `c`. -/
def conflictTheory : ScalingTheory :=
  { Ytheory := fun X _ _ => X
    parameterNames := "a,c"
    parameterNameList := ["a", "c"]
    initialParameterValues := [5, 7]
    scalingX := fun X _ _ => X
    scalingY := fun _ Y _ _ => Y
    normalize := false
    norm := NormStrategy.basic }

/-- A model carrying `conflictTheory`. -/
def conflictModel : Model :=
  { theory := conflictTheory, data := dataEx, name := "cf" }

/-- A composite with the square model already installed (parameter `a`
stored with initial value `1`). -/
def compositeExA : CompositeModel :=
  (emptyComposite "jc").InstallModel "sq" modelEx

/-- The definite-integral estimate of the spec: trapezoid rule with one-sided
differences at the two boundary samples and centered differences
`(X[i+1]-X[i-1])/2` at interior samples. -/
def trapezoidEstimate (X Y : List Val) : Val :=
  Y.getD 0 0 * (X.getD 1 0 - X.getD 0 0)
    + (∑ i in Finset.Ico 1 (X.length - 1),
        Y.getD i 0 * (X.getD (i + 1) 0 - X.getD (i - 1) 0) / 2)
    + Y.getD (X.length - 1) 0
        * (X.getD (X.length - 1) 0 - X.getD (X.length - 2) 0)

/-- A theory with formula `"X**2"` and the default trapezoid normalization
enabled. -/
def basicNormTheory : ScalingTheory :=
  { Ytheory := fun X _ _ => X.map (fun x => x * x)
    parameterNames := "a"
    parameterNameList := ["a"]
    initialParameterValues := [1]
    scalingX := fun X _ _ => X
    scalingY := fun _ Y _ _ => Y
    normalize := true
    norm := NormStrategy.basic }

/-! ### Theorems -/

/-- C2: `Model.Cost(p)` is the sum of squares of `Model.Residual(p)`, and an
omitted parameter argument defaults to the theory's stored initial values. -/
theorem claim2_cost_is_sum_of_squared_residuals (m : Model) (fuel : Nat) (p : List Val) :
    m.Cost fuel (some p)
        = (m.Residual fuel p).map (fun r => (r.map (fun x => x * x)).sum) ∧
      m.Cost fuel none = m.Cost fuel (some m.theory.initialParameterValues) := by
  constructor
  · simp [Model.Cost, List.zipWith_same]
  · rfl

/-- C8 (failing evaluation): for any theory whose active normalization is
`NormIntegerSum`, `ScalingTheory.Y` never returns: `NormIntegerSum` re-enters
`self.Y` with the same normalization configuration, so every finite recursion
depth is exhausted (Python: unbounded recursion). -/
theorem claim8_integerSum_normalization_never_returns (th : ScalingTheory)
    (a b : Val) (hn : th.normalize = true)
    (hs : th.norm = NormStrategy.integerSum a b) (fuel : Nat) (X p iv : List Val) :
    th.Yfuel fuel X p iv = none := by
  induction fuel generalizing X p iv with
  | zero => simp [ScalingTheory.Yfuel, hn, hs]
  | succ n ih => simp [ScalingTheory.Yfuel, hn, hs, NormIntegerSum, ih]

theorem claim8_witness : integerSumTheory.Yfuel 100 [1, 2] [1] [] = none :=
  claim8_integerSum_normalization_never_returns integerSumTheory 1 1024 rfl rfl
    100 [1, 2] [1] []

/-- Scaling collapse for the square formula: `Y/X**2` applied to `X**2`
is elementwise `1` when no entry of `X` is zero. -/
lemma zipWith_sq_div (X : List Val) (hX : ∀ x ∈ X, x ≠ 0) :
    List.zipWith (fun y x => y / x ^ 2) (X.map (fun x => x ^ 2)) X
      = List.replicate X.length 1 := by
  induction X with
  | nil => rfl
  | cons x rest ih =>
    have hx : x ^ 2 ≠ 0 := pow_ne_zero 2 (hX x (List.mem_cons_self x rest))
    simp only [List.map_cons, List.zipWith_cons_cons, List.length_cons,
      List.replicate_succ]
    rw [div_self hx, ih (fun y hy => hX y (List.mem_cons_of_mem x hy))]

/-- C9: for the theory with formula `"X**2"`, `scalingX="X"`, `scalingY="Y/X**2"`
and normalization off, `ScaleY(X, Theory.Y(X, p, iv), p, iv)` is the constant
array of 1s for every parameter vector, control value, and zero-free `X`. -/
theorem claim9_square_theory_collapse_is_ones (fuel : Nat) (p iv X : List Val)
    (hX : ∀ x ∈ X, x ≠ 0) :
    squareTheory.Yfuel fuel X p iv = some (X.map (fun x => x ^ 2)) ∧
      squareTheory.ScaleY X (X.map (fun x => x ^ 2)) p iv
        = List.replicate X.length 1 := by
  refine ⟨by simp [ScalingTheory.Yfuel, squareTheory], ?_⟩
  simpa [ScalingTheory.ScaleY, squareTheory] using zipWith_sq_div X hX

theorem claim9_witness :
    squareTheory.Yfuel 0 [1, 2] [] [] = some ([(1 : Val), 2].map (fun x => x ^ 2)) ∧
      squareTheory.ScaleY [1, 2] ([(1 : Val), 2].map (fun x => x ^ 2)) [] []
        = List.replicate ([(1 : Val), 2]).length 1 :=
  claim9_square_theory_collapse_is_ones 0 [] [] [1, 2] (by decide)

/-- C3: after every `InstallModel` call, every installed sub-model's theory
holds exactly the composite's unified `parameterNames`, `parameterNameList`,
and `initialParameterValues`. -/
theorem claim3_installModel_syncs_all_theories (c : CompositeModel)
    (modelName : String) (model : Model) :
    ∀ nm ∈ (c.InstallModel modelName model).Models,
      nm.2.theory.parameterNames
          = (c.InstallModel modelName model).theory.parameterNames ∧
        nm.2.theory.parameterNameList
          = (c.InstallModel modelName model).theory.parameterNameList ∧
        nm.2.theory.initialParameterValues
          = (c.InstallModel modelName model).theory.initialParameterValues := by
  intro nm hnm
  simp only [CompositeModel.InstallModel, List.mem_map] at hnm
  obtain ⟨q, hq, rfl⟩ := hnm
  exact ⟨rfl, rfl, rfl⟩

theorem claim3_witness :
    ((((emptyComposite "c").InstallModel "sq" modelEx).Models.headI).2.theory.parameterNames
        = ((emptyComposite "c").InstallModel "sq" modelEx).theory.parameterNames ∧
      (((emptyComposite "c").InstallModel "sq" modelEx).Models.headI).2.theory.parameterNameList
        = ((emptyComposite "c").InstallModel "sq" modelEx).theory.parameterNameList ∧
      (((emptyComposite "c").InstallModel "sq" modelEx).Models.headI).2.theory.initialParameterValues
        = ((emptyComposite "c").InstallModel "sq" modelEx).theory.initialParameterValues) :=
  claim3_installModel_syncs_all_theories (emptyComposite "c") "sq" modelEx
    _ (List.Mem.head _)

/-- `compositeResidualOver` on a list of models whose residuals are all
defined is the concatenation of those residuals in list order. -/
lemma compositeResidualOver_eq (fuel : Nat) (p : List Val) :
    ∀ l : List (String × Model),
      (∀ nm ∈ l, (nm.2.Residual fuel p).isSome) →
      compositeResidualOver fuel p l
        = some ((l.map (fun nm => (nm.2.Residual fuel p).getD [])).flatten) := by
  intro l
  induction l with
  | nil => intro _; rfl
  | cons nm rest ih =>
    intro h
    obtain ⟨r, hr⟩ :=
      Option.isSome_iff_exists.mp (h nm (List.mem_cons_self nm rest))
    have ht := ih (fun q hq => h q (List.mem_cons_of_mem nm hq))
    simp [compositeResidualOver, hr, ht]

/-- C5 (failing evaluation): the composite residual loop concatenates
sub-model residuals in whatever order `self.Models.values()` yields — and
that order matters.  First conjunct: for every traversal order whose
residuals are all defined, the result is the concatenation in exactly that
order.  Second conjunct: at a concrete input, the insertion order
(`"b"` then `"a"`) and the Python 2 hash-slot order (`"a"` before `"b"`)
produce different residual vectors, so the insertion-order contract of the
claim is not provided by a Python 2 dict. -/
theorem claim5_concat_follows_dict_traversal_order :
    (∀ (fuel : Nat) (p : List Val) (order : List (String × Model)),
        (∀ nm ∈ order, (nm.2.Residual fuel p).isSome) →
        compositeResidualOver fuel p order
          = some ((order.map (fun nm => (nm.2.Residual fuel p).getD [])).flatten)) ∧
      compositeResidualOver 0 [1] [("b", modelEx2), ("a", modelEx)]
        ≠ compositeResidualOver 0 [1] [("a", modelEx), ("b", modelEx2)] :=
  ⟨fun fuel p order h => compositeResidualOver_eq fuel p order h, by
    have h1 : compositeResidualOver 0 [1] [("b", modelEx2), ("a", modelEx)]
        = some [-2, -6, 0, 0] := by
      norm_num [compositeResidualOver, Model.Residual, residualOver, modelEx,
        modelEx2, squareTheory, linTheory, dataEx, ScalingTheory.Yfuel]
    have h2 : compositeResidualOver 0 [1] [("a", modelEx), ("b", modelEx2)]
        = some [0, 0, -2, -6] := by
      norm_num [compositeResidualOver, Model.Residual, residualOver, modelEx,
        modelEx2, squareTheory, linTheory, dataEx, ScalingTheory.Yfuel]
    rw [h1, h2]
    decide⟩

theorem claim5_witness :
    compositeResidualOver 0 [1] [("b", modelEx2), ("a", modelEx)]
        = some (([("b", modelEx2), ("a", modelEx)].map
            (fun nm => (nm.2.Residual 0 [1]).getD [])).flatten) ∧
      compositeResidualOver 0 [1] [("b", modelEx2), ("a", modelEx)]
        ≠ compositeResidualOver 0 [1] [("a", modelEx), ("b", modelEx2)] :=
  ⟨claim5_concat_follows_dict_traversal_order.1 0 [1]
      [("b", modelEx2), ("a", modelEx)] (by decide),
    claim5_concat_follows_dict_traversal_order.2⟩

/-- `residualOver` succeeds and equals the block concatenation whenever every
curve's theory prediction is defined. -/
lemma residualOver_eq_concat (th : ScalingTheory) (d : Data) (fuel : Nat)
    (p : List Val) :
    ∀ l : List (List Val),
      (∀ iv ∈ l, (th.Yfuel fuel ((d.X iv).drop (d.initialSkip iv)) p iv).isSome) →
      residualOver th d fuel p l = some ((l.map (curveBlock th d fuel p)).flatten) := by
  intro l
  induction l with
  | nil => intro _; rfl
  | cons iv rest ih =>
    intro h
    obtain ⟨y, hy⟩ :=
      Option.isSome_iff_exists.mp (h iv (List.mem_cons_self iv rest))
    have ht := ih (fun q hq => h q (List.mem_cons_of_mem iv hq))
    simp [residualOver, hy, ht, curveBlock]

/-- A curve block has the post-skip curve length when the curve arrays agree
in length and the theory prediction has the post-skip length. -/
lemma curveBlock_length (th : ScalingTheory) (d : Data) (fuel : Nat)
    (p iv : List Val) (hY : (d.Y iv).length = (d.X iv).length)
    (hE : (d.errorBar iv).length = (d.X iv).length)
    (hTh : ∃ yth,
      th.Yfuel fuel ((d.X iv).drop (d.initialSkip iv)) p iv = some yth ∧
        yth.length = (d.X iv).length - d.initialSkip iv) :
    (curveBlock th d fuel p iv).length = (d.X iv).length - d.initialSkip iv := by
  obtain ⟨yth, hy, hl⟩ := hTh
  simp [curveBlock, hy, List.length_zipWith, hY, hE, hl]

/-- C1: `Model.Residual(p)` is the flat concatenation, over the curves in the
experiment list in list order, of `(Theory.Y(X[skip:], p, iv) - Y[skip:]) /
errorBar[skip:]`, and its length is the sum over curves of
`curve length - initialSkip`. -/
theorem claim1_residual_is_flat_concat_of_curve_blocks (m : Model) (fuel : Nat)
    (p : List Val)
    (hlen : ∀ iv ∈ m.data.experiments,
      (m.data.Y iv).length = (m.data.X iv).length ∧
        (m.data.errorBar iv).length = (m.data.X iv).length)
    (hY : ∀ iv ∈ m.data.experiments, ∃ yth,
      m.theory.Yfuel fuel ((m.data.X iv).drop (m.data.initialSkip iv)) p iv
          = some yth ∧
        yth.length = (m.data.X iv).length - m.data.initialSkip iv) :
    m.Residual fuel p = some (residualConcatSpec m fuel p) ∧
      (residualConcatSpec m fuel p).length
        = (m.data.experiments.map
            (fun iv => (m.data.X iv).length - m.data.initialSkip iv)).sum := by
  constructor
  · exact residualOver_eq_concat m.theory m.data fuel p m.data.experiments
      (fun iv hiv => by obtain ⟨y, hy, _⟩ := hY iv hiv; simp [hy])
  · rw [residualConcatSpec, List.length_flatten, List.map_map]
    exact congrArg List.sum (List.map_congr_left (fun iv hiv =>
      curveBlock_length m.theory m.data fuel p iv (hlen iv hiv).1 (hlen iv hiv).2
        (hY iv hiv)))

theorem claim1_witness :
    modelEx.Residual 0 [1] = some (residualConcatSpec modelEx 0 [1]) ∧
      (residualConcatSpec modelEx 0 [1]).length
        = (modelEx.data.experiments.map
            (fun iv => (modelEx.data.X iv).length - modelEx.data.initialSkip iv)).sum :=
  claim1_residual_is_flat_concat_of_curve_blocks modelEx 0 [1] (by decide)
    (fun iv _ => ⟨[4, 9], rfl, rfl⟩)

/-- `addParams` only ever appends (in lockstep) to the name and value lists. -/
lemma addParams_exists_append :
    ∀ (ps : List (String × Val)) (th : CompositeTheory),
      ∃ qs : List (String × Val),
        (addParams th ps).parameterNameList
            = th.parameterNameList ++ qs.map Prod.fst ∧
          (addParams th ps).initialParameterValues
            = th.initialParameterValues ++ qs.map Prod.snd := by
  intro ps
  induction ps with
  | nil => intro th; exact ⟨[], by simp [addParams], by simp [addParams]⟩
  | cons pv rest ih =>
    intro th
    obtain ⟨param, init⟩ := pv
    by_cases h : param ∈ th.parameterNameList
    · simpa [addParams, h] using ih th
    · obtain ⟨qs, h1, h2⟩ := ih
        { parameterNames :=
            if th.parameterNames.length = 0 then th.parameterNames ++ param
            else th.parameterNames ++ "," ++ param
          initialParameterValues := th.initialParameterValues ++ [init]
          parameterNameList := th.parameterNameList ++ [param] }
      refine ⟨(param, init) :: qs, ?_, ?_⟩
      · simp only [addParams, if_neg h, h1]; simp
      · simp only [addParams, if_neg h, h2]; simp

/-- Membership in the merged name list: a name is present iff it was present
before or is declared (within the zipped range) by the installed pairs. -/
lemma addParams_mem :
    ∀ (ps : List (String × Val)) (th : CompositeTheory) (x : String),
      x ∈ (addParams th ps).parameterNameList ↔
        x ∈ th.parameterNameList ∨ x ∈ ps.map Prod.fst := by
  intro ps
  induction ps with
  | nil => intro th x; simp [addParams]
  | cons pv rest ih =>
    intro th x
    obtain ⟨param, init⟩ := pv
    by_cases h : param ∈ th.parameterNameList
    · simp only [addParams, if_pos h, ih, List.map_cons, List.mem_cons]
      constructor
      · rintro (hx | hx)
        · exact Or.inl hx
        · exact Or.inr (Or.inr hx)
      · rintro (hx | rfl | hx)
        · exact Or.inl hx
        · exact Or.inl h
        · exact Or.inr hx
    · simp only [addParams, if_neg h, ih, List.map_cons, List.mem_cons,
        List.mem_append, List.mem_singleton]
      tauto

/-- The installed key is always among the stored model names. -/
lemma insertModel_mem_keys (ms : List (String × Model)) (k : String) (v : Model) :
    k ∈ (insertModel ms k v).map Prod.fst := by
  rw [insertModel]
  by_cases h : ms.any (fun nm => nm.1 = k)
  · rw [if_pos h]
    obtain ⟨nm, hnm, hk⟩ := List.any_eq_true.mp h
    refine List.mem_map.mpr ⟨(k, v), List.mem_map.mpr ⟨nm, hnm, ?_⟩, rfl⟩
    simp only [decide_eq_true_eq] at hk
    simp [hk]
  · rw [if_neg h]
    simp

/-- C4: installing a model that redeclares an existing composite parameter
with a different initial value keeps the stored value (first writer wins),
keeps the parameter's position, and still completes: the model is stored and
all of its parameters end up in the unified name list. -/
theorem claim4_conflicting_initial_value_keeps_first (c : CompositeModel)
    (modelName : String) (model : Model) (param : String) (vNew : Val)
    (hmem : param ∈ c.theory.parameterNameList)
    (hlenc : c.theory.initialParameterValues.length
      = c.theory.parameterNameList.length)
    (hdecl : (param, vNew) ∈
      model.theory.parameterNameList.zip model.theory.initialParameterValues)
    (hconf : vNew ≠ c.theory.initialParameterValues.getD
      (c.theory.parameterNameList.indexOf param) 0)
    (hmlen : model.theory.parameterNameList.length
      ≤ model.theory.initialParameterValues.length) :
    (c.InstallModel modelName model).theory.parameterNameList.indexOf param
        = c.theory.parameterNameList.indexOf param ∧
      (c.InstallModel modelName model).theory.initialParameterValues.getD
          (c.theory.parameterNameList.indexOf param) 0
        = c.theory.initialParameterValues.getD
          (c.theory.parameterNameList.indexOf param) 0 ∧
      modelName ∈ (c.InstallModel modelName model).Models.map Prod.fst ∧
      ∀ q ∈ model.theory.parameterNameList,
        q ∈ (c.InstallModel modelName model).theory.parameterNameList := by
  obtain ⟨qs, h1, h2⟩ := addParams_exists_append
    (model.theory.parameterNameList.zip model.theory.initialParameterValues)
    c.theory
  have hidx : c.theory.parameterNameList.indexOf param
      < c.theory.initialParameterValues.length :=
    hlenc ▸ List.indexOf_lt_length.mpr hmem
  refine ⟨?_, ?_, ?_, ?_⟩
  · show (addParams c.theory _).parameterNameList.indexOf param = _
    rw [h1]
    exact List.indexOf_append_of_mem hmem
  · show (addParams c.theory _).initialParameterValues.getD _ 0 = _
    rw [h2]
    exact List.getD_append _ _ _ _ hidx
  · obtain ⟨nm, hnm, hk⟩ :=
      List.mem_map.mp (insertModel_mem_keys c.Models modelName model)
    exact List.mem_map.mpr ⟨_, List.mem_map.mpr ⟨nm, hnm, rfl⟩, hk⟩
  · intro q hq
    show q ∈ (addParams c.theory _).parameterNameList
    refine (addParams_mem _ _ q).mpr (Or.inr ?_)
    rw [List.map_fst_zip _ _ hmlen]
    exact hq

theorem claim4_witness :
    (compositeExA.InstallModel "cf" conflictModel).theory.parameterNameList.indexOf "a"
        = compositeExA.theory.parameterNameList.indexOf "a" ∧
      (compositeExA.InstallModel "cf" conflictModel).theory.initialParameterValues.getD
          (compositeExA.theory.parameterNameList.indexOf "a") 0
        = compositeExA.theory.initialParameterValues.getD
          (compositeExA.theory.parameterNameList.indexOf "a") 0 ∧
      "cf" ∈ (compositeExA.InstallModel "cf" conflictModel).Models.map Prod.fst ∧
      ∀ q ∈ conflictModel.theory.parameterNameList,
        q ∈ (compositeExA.InstallModel "cf" conflictModel).theory.parameterNameList :=
  claim4_conflicting_initial_value_keeps_first compositeExA "cf" conflictModel
    "a" 5 (by decide) (by decide) (by decide) (by decide) (by decide)

/-- The parameter name set after installing a list of models: a name is
present iff some installed model declares it (within its zipped range). -/
lemma installAll_theory_names :
    ∀ (ms : List (String × Model)) (c : CompositeModel) (x : String),
      x ∈ (installAll c ms).theory.parameterNameList ↔
        x ∈ c.theory.parameterNameList ∨
          ∃ nm ∈ ms, x ∈ (nm.2.theory.parameterNameList.zip
            nm.2.theory.initialParameterValues).map Prod.fst := by
  intro ms
  induction ms with
  | nil => intro c x; simp [installAll]
  | cons nm rest ih =>
    intro c x
    have hstep : installAll c (nm :: rest)
        = installAll (c.InstallModel nm.1 nm.2) rest := rfl
    rw [hstep, ih]
    have h2 : ∀ y, y ∈ (c.InstallModel nm.1 nm.2).theory.parameterNameList ↔
        y ∈ c.theory.parameterNameList ∨
          y ∈ (nm.2.theory.parameterNameList.zip
            nm.2.theory.initialParameterValues).map Prod.fst :=
      fun y => addParams_mem _ c.theory y
    rw [h2]
    simp only [List.exists_mem_cons_iff]
    tauto

/-- C6: the set of composite parameter names after installing a collection of
models into a fresh composite does not depend on the installation order. -/
theorem claim6_param_name_set_is_order_independent
    (ms₁ ms₂ : List (String × Model)) (cname : String) (hperm : ms₁.Perm ms₂)
    (hnodup : (ms₁.map Prod.fst).Nodup)
    (hlen : ∀ nm ∈ ms₁, nm.2.theory.parameterNameList.length
      ≤ nm.2.theory.initialParameterValues.length) (x : String) :
    x ∈ (installAll (emptyComposite cname) ms₁).theory.parameterNameList ↔
      x ∈ (installAll (emptyComposite cname) ms₂).theory.parameterNameList := by
  rw [installAll_theory_names, installAll_theory_names]
  simp only [emptyComposite, List.not_mem_nil, false_or]
  constructor
  · rintro ⟨nm, hnm, hx⟩
    exact ⟨nm, hperm.mem_iff.mp hnm, hx⟩
  · rintro ⟨nm, hnm, hx⟩
    exact ⟨nm, hperm.mem_iff.mpr hnm, hx⟩

theorem claim6_witness :
    ("b" ∈ (installAll (emptyComposite "jc")
        [("sq", modelEx), ("lin", modelEx2)]).theory.parameterNameList ↔
      "b" ∈ (installAll (emptyComposite "jc")
        [("lin", modelEx2), ("sq", modelEx)]).theory.parameterNameList) :=
  claim6_param_name_set_is_order_independent
    [("sq", modelEx), ("lin", modelEx2)] [("lin", modelEx2), ("sq", modelEx)]
    "jc" (List.Perm.swap _ _ _) (by decide) (by decide) "b"

lemma pyGet_zero (l : List Val) : pyGet l 0 = l[0]? := rfl

lemma pyGet_one (l : List Val) : pyGet l 1 = l[1]? := rfl

lemma pyGet_neg_one (l : List Val) (h : 1 ≤ l.length) :
    pyGet l (-1) = l[l.length - 1]? := by
  rw [pyGet, if_neg (by omega), if_pos (by omega)]
  congr 1
  omega

lemma pyGet_neg_two (l : List Val) (h : 2 ≤ l.length) :
    pyGet l (-2) = l[l.length - 2]? := by
  rw [pyGet, if_neg (by omega), if_pos (by omega)]
  congr 1
  omega

/-- A zipped elementwise sum as an indexed sum over positions. -/
lemma sum_zipWith_getD (f : Val → Val → Val) :
    ∀ (A B : List Val), A.length = B.length →
      (List.zipWith f A B).sum
        = ∑ i in Finset.range A.length, f (A.getD i 0) (B.getD i 0) := by
  intro A
  induction A with
  | nil => intro B h; simp
  | cons a A ih =>
    intro B h
    cases B with
    | nil => simp at h
    | cons b B =>
      rw [List.zipWith_cons_cons, List.sum_cons,
        ih B (Nat.succ_injective h), List.length_cons, Finset.sum_range_succ']
      simp only [List.getD_cons_succ, List.getD_cons_zero]
      exact add_comm _ _

/-- The sliced interior term of `NormBasic` equals the spec's indexed sum over
interior samples. -/
lemma interior_sum_eq (X Y : List Val) (h2 : 2 ≤ X.length)
    (hlen : Y.length = X.length) :
    (List.zipWith (fun y d => y * d / 2) ((Y.drop 1).take (Y.length - 2))
        (List.zipWith (fun a b => a - b) (X.drop 2) (X.take (X.length - 2)))).sum
      = ∑ i in Finset.Ico 1 (X.length - 1),
          Y.getD i 0 * (X.getD (i + 1) 0 - X.getD (i - 1) 0) / 2 := by
  have hA : ((Y.drop 1).take (Y.length - 2)).length = X.length - 2 := by
    rw [List.length_take, List.length_drop, hlen]
    omega
  have hB : (List.zipWith (fun a b : Val => a - b) (X.drop 2)
      (X.take (X.length - 2))).length = X.length - 2 := by
    rw [List.length_zipWith, List.length_take, List.length_drop]
    omega
  rw [sum_zipWith_getD _ _ _ (hA.trans hB.symm), hA]
  rw [Finset.sum_Ico_eq_sum_range]
  have hn : X.length - 1 - 1 = X.length - 2 := by omega
  rw [hn]
  refine Finset.sum_congr rfl (fun i hi => ?_)
  have hi' : i < X.length - 2 := Finset.mem_range.mp hi
  have eA : ((Y.drop 1).take (Y.length - 2)).getD i 0 = Y.getD (1 + i) 0 := by
    rw [List.getD_eq_getElem?_getD, List.getElem?_take_of_lt (by omega),
      List.getElem?_drop, List.getD_eq_getElem?_getD]
  have eB : (List.zipWith (fun a b : Val => a - b) (X.drop 2)
      (X.take (X.length - 2))).getD i 0 = X.getD (2 + i) 0 - X.getD i 0 := by
    rw [List.getD_eq_getElem?_getD, List.getElem?_zipWith]
    rw [List.getElem?_drop, List.getElem?_take_of_lt hi']
    have e1 : X[2 + i]? = some (X.getD (2 + i) 0) := by
      rw [List.getElem?_eq_getElem (by omega), List.getD_eq_getElem _ _ (by omega)]
    have e2 : X[i]? = some (X.getD i 0) := by
      rw [List.getElem?_eq_getElem (by omega), List.getD_eq_getElem _ _ (by omega)]
    rw [e1, e2]
    rfl
  rw [eA, eB]
  have e3 : 1 + i + 1 = 2 + i := by omega
  have e4 : 1 + i - 1 = i := by omega
  rw [e3, e4]

/-- `NormBasic` on curves with at least two samples: `Y` divided elementwise
by the trapezoid estimate. -/
lemma normBasic_eq (X Y : List Val) (h2 : 2 ≤ X.length)
    (hlen : Y.length = X.length) :
    NormBasic X Y = some (Y.map (fun y => y / trapezoidEstimate X Y)) := by
  have hY2 : 2 ≤ Y.length := by omega
  have e1 : pyGet Y 0 = some (Y.getD 0 0) := by
    rw [pyGet_zero, List.getElem?_eq_getElem (by omega),
      List.getD_eq_getElem _ _ (by omega)]
  have e2 : pyGet X 1 = some (X.getD 1 0) := by
    rw [pyGet_one, List.getElem?_eq_getElem (by omega),
      List.getD_eq_getElem _ _ (by omega)]
  have e3 : pyGet X 0 = some (X.getD 0 0) := by
    rw [pyGet_zero, List.getElem?_eq_getElem (by omega),
      List.getD_eq_getElem _ _ (by omega)]
  have e4 : pyGet Y (-1) = some (Y.getD (X.length - 1) 0) := by
    rw [pyGet_neg_one Y (by omega), show Y.length - 1 = X.length - 1 by omega,
      List.getElem?_eq_getElem (by omega), List.getD_eq_getElem _ _ (by omega)]
  have e5 : pyGet X (-1) = some (X.getD (X.length - 1) 0) := by
    rw [pyGet_neg_one X (by omega), List.getElem?_eq_getElem (by omega),
      List.getD_eq_getElem _ _ (by omega)]
  have e6 : pyGet X (-2) = some (X.getD (X.length - 2) 0) := by
    rw [pyGet_neg_two X h2, List.getElem?_eq_getElem (by omega),
      List.getD_eq_getElem _ _ (by omega)]
  have emid := interior_sum_eq X Y h2 hlen
  rw [NormBasic]
  rw [e1, e2]
  simp only [Option.bind_eq_bind, Option.some_bind]
  rw [e3]
  simp only [Option.some_bind]
  rw [e4]
  simp only [Option.some_bind]
  rw [e5]
  simp only [Option.some_bind]
  rw [e6]
  simp only [Option.some_bind]
  rw [emid, trapezoidEstimate]

/-- C7: for every `X` with at least two samples and matching `Y`, the
trapezoid normalization returns `Y` divided by
`Y[0]*(X[1]-X[0]) + Σ_interior Y[i]*(X[i+1]-X[i-1])/2 + Y[-1]*(X[-1]-X[-2])`;
and normalizing `Y≡1` over `X=[0,1,2,3]` yields an array whose
trapezoid-weighted sum is 1. -/
theorem claim7_trapezoid_normalization_divides_by_estimate (X Y : List Val)
    (h2 : 2 ≤ X.length) (hlen : Y.length = X.length) :
    NormBasic X Y = some (Y.map (fun y => y / trapezoidEstimate X Y)) ∧
      trapezoidEstimate [0, 1, 2, 3]
        ((NormBasic [0, 1, 2, 3] [1, 1, 1, 1]).getD []) = 1 :=
  ⟨normBasic_eq X Y h2 hlen, by
    norm_num [trapezoidEstimate, NormBasic, pyGet, Finset.sum_Ico_eq_sum_range,
      Finset.sum_range_succ, Finset.sum_range_zero,
      show ((3 : ℤ).toNat = 3) from rfl, show ((2 : ℤ).toNat = 2) from rfl,
      List.getElem_cons_succ, List.getElem_cons_zero]⟩

theorem claim7_witness :
    NormBasic [0, 1, 2, 3] [1, 1, 1, 1]
        = some ([(1 : Val), 1, 1, 1].map
            (fun y => y / trapezoidEstimate [0, 1, 2, 3] [1, 1, 1, 1])) ∧
      trapezoidEstimate [0, 1, 2, 3]
        ((NormBasic [0, 1, 2, 3] [1, 1, 1, 1]).getD []) = 1 :=
  claim7_trapezoid_normalization_divides_by_estimate [0, 1, 2, 3] [1, 1, 1, 1]
    (by decide) rfl

/-- On fewer than two samples, `NormBasic` hits an out-of-range index. -/
lemma normBasic_none_of_short (X Y : List Val) (hlen : Y.length = X.length)
    (hlt : X.length < 2) : NormBasic X Y = none := by
  cases X with
  | nil =>
    cases Y with
    | nil => rfl
    | cons y ys => simp at hlen
  | cons x xs =>
    cases xs with
    | nil =>
      cases Y with
      | nil => simp at hlen
      | cons y ys =>
        cases ys with
        | nil => rfl
        | cons z zs => simp at hlen
    | cons x2 xs2 =>
      simp only [List.length_cons] at hlt
      omega

/-- C10: `NormBasic` is in bounds exactly when `X` has at least two samples,
so a trapezoid-normalized theory returns no value on a curve with fewer than
two post-skip samples. -/
theorem claim10_trapezoid_normalization_needs_two_samples (X Y : List Val)
    (hlen : Y.length = X.length) :
    ((NormBasic X Y).isSome ↔ 2 ≤ X.length) ∧
      (∀ (fuel : Nat) (p iv : List Val), X.length < 2 →
        basicNormTheory.Yfuel fuel X p iv = none) := by
  constructor
  · constructor
    · intro hs
      by_contra hlt
      push_neg at hlt
      rw [normBasic_none_of_short X Y hlen hlt] at hs
      simp at hs
    · intro h2
      rw [normBasic_eq X Y h2 hlen]
      rfl
  · intro fuel p iv hlt
    have hnone := normBasic_none_of_short X (X.map (fun x => x * x))
      (by simp) hlt
    simpa [ScalingTheory.Yfuel, basicNormTheory] using hnone

theorem claim10_witness :
    ((NormBasic [5] [7]).isSome ↔ 2 ≤ ([5] : List Val).length) ∧
      basicNormTheory.Yfuel 3 [5] [] [] = none :=
  ⟨(claim10_trapezoid_normalization_needs_two_samples [5] [7] rfl).1,
    (claim10_trapezoid_normalization_needs_two_samples [5] [7] rfl).2 3 [] []
      (by decide)⟩

end SloppyScaling
